import Mathlib

/-!
Verification of the isolation game-playing agent (`game_agent.py`).

The agent's search engine (`CustomPlayer.minimax`, `CustomPlayer.alphabeta`,
`CustomPlayer.get_move`) is embedded shallowly.  The external `isolation.Board`
collaborator and the heuristic evaluation function are abstracted into a
`Game` interface, exactly as the code consumes them: `get_legal_moves`,
`forecast_move`, `utility`, and `self.score`.

Python floats with `float('inf')` / `float('-inf')` are modelled by the
linearly ordered type `WithBot (WithTop ℚ)`: `⊥` is `-inf`, `⊤` is `+inf`,
and finite scores are rationals.  (No NaNs arise: the evaluator contract in
the code only ever produces finite scores or the two infinities.)

The cooperatively sampled clock `self.time_left()` compared against
`self.TIMER_THRESHOLD` is modelled by a `Timer`: a function from the index of
the time sample (samples are made once per recursive entry, in call order) to
the remaining milliseconds, plus the threshold.  `raise Timeout()` is
modelled by the `none` result of the timed search functions; Python's `None`
move placeholder is `(none : Option Move)` while a returned tuple `(r, c)` is
`some (r, c)`.
-/

namespace GameAgent

/-- Scores: Python floats with `-inf` (`⊥`) and `+inf` (`⊤`). -/
abbrev Score : Type := WithBot (WithTop ℚ)

/-- A finite score. -/
def fin (q : ℚ) : Score := ((q : WithTop ℚ) : Score)

/-- Moves are `(row, col)` integer pairs, as in the Python code. -/
abbrev Move : Type := Int × Int

/-- The `(-1, -1)` sentinel the code returns when no legal moves exist. -/
def nullMove : Move := (-1, -1)

/-- The slice of the `isolation.Board` interface (plus the player's bound
evaluation function `self.score`) that the search engine consumes.
`legal` is `game.get_legal_moves()`, `forecast` is `game.forecast_move(m)`,
`utility` is `game.utility(self)` and `eval` is `self.score(game, self)`. -/
structure Game (σ : Type) where
  legal : σ → List Move
  forecast : σ → Move → σ
  utility : σ → Score
  eval : σ → Score

variable {σ : Type}

/-! ### Pure searches (the time check never fires)

These embed the bodies of `CustomPlayer.minimax` (lines 402-427) and
`CustomPlayer.alphabeta` (lines 471-503) under the assumption that
`self.time_left() < self.TIMER_THRESHOLD` is never true, so the leading
`raise Timeout()` guard is dead code.  The Python `for` loops over
`legal_moves`, with their running `best_score` / `best_move` pair, strict
comparisons and (for alphabeta) early `return` on a cutoff, are the `Go`
helpers below, one per maximizing/minimizing branch. -/

/-- The maximizing loop of `minimax` (lines 412-417): strict improvement
`score > best_score`, starting from `best_score = -inf`, `best_move = None`. -/
def mmMaxGo (G : Game σ) (s : σ) (child : σ → Bool → Score × Option Move) :
    List Move → Score → Option Move → Score × Option Move
  | [], b, bm => (b, bm)
  | m :: rest, b, bm =>
    let sc := (child (G.forecast s m) false).1
    if b < sc then mmMaxGo G s child rest sc (some m)
    else mmMaxGo G s child rest b bm

/-- The minimizing loop of `minimax` (lines 419-424): strict improvement
`score < best_score`, starting from `best_score = inf`, `best_move = None`. -/
def mmMinGo (G : Game σ) (s : σ) (child : σ → Bool → Score × Option Move) :
    List Move → Score → Option Move → Score × Option Move
  | [], b, bm => (b, bm)
  | m :: rest, b, bm =>
    let sc := (child (G.forecast s m) true).1
    if sc < b then mmMinGo G s child rest sc (some m)
    else mmMinGo G s child rest b bm

/-- `CustomPlayer.minimax(game, depth, maximizing_player)` with the time
check never firing.  Base cases: `depth == 0` returns the evaluation,
an empty legal-move list returns `game.utility(self)`, both paired with
`(-1, -1)`. -/
def minimax (G : Game σ) : Nat → σ → Bool → Score × Option Move
  | 0, s, _ => (G.eval s, some nullMove)
  | d + 1, s, maxi =>
    match G.legal s with
    | [] => (G.utility s, some nullMove)
    | m :: rest =>
      if maxi then mmMaxGo G s (minimax G d) (m :: rest) ⊥ none
      else mmMinGo G s (minimax G d) (m :: rest) ⊤ none

/-- The maximizing loop of `alphabeta` (lines 483-491): strict improvement,
then `return` once `best_score >= beta`, then `alpha = max(alpha, best_score)`. -/
def abMaxGo (G : Game σ) (s : σ)
    (child : σ → Score → Score → Bool → Score × Option Move) :
    List Move → Score → Option Move → Score → Score → Score × Option Move
  | [], b, bm, _, _ => (b, bm)
  | m :: rest, b, bm, alpha, beta =>
    let sc := (child (G.forecast s m) alpha beta false).1
    if b < sc then
      if beta ≤ sc then (sc, some m)
      else abMaxGo G s child rest sc (some m) (max alpha sc) beta
    else
      if beta ≤ b then (b, bm)
      else abMaxGo G s child rest b bm (max alpha b) beta

/-- The minimizing loop of `alphabeta` (lines 493-501): strict improvement,
then `return` once `best_score <= alpha`, then `beta = min(beta, best_score)`. -/
def abMinGo (G : Game σ) (s : σ)
    (child : σ → Score → Score → Bool → Score × Option Move) :
    List Move → Score → Option Move → Score → Score → Score × Option Move
  | [], b, bm, _, _ => (b, bm)
  | m :: rest, b, bm, alpha, beta =>
    let sc := (child (G.forecast s m) alpha beta true).1
    if sc < b then
      if sc ≤ alpha then (sc, some m)
      else abMinGo G s child rest sc (some m) alpha (min beta sc)
    else
      if b ≤ alpha then (b, bm)
      else abMinGo G s child rest b bm alpha (min beta b)

/-- `CustomPlayer.alphabeta(game, depth, alpha, beta, maximizing_player)`
with the time check never firing. -/
def alphabeta (G : Game σ) : Nat → σ → Score → Score → Bool → Score × Option Move
  | 0, s, _, _, _ => (G.eval s, some nullMove)
  | d + 1, s, alpha, beta, maxi =>
    match G.legal s with
    | [] => (G.utility s, some nullMove)
    | m :: rest =>
      if maxi then abMaxGo G s (alphabeta G d) (m :: rest) ⊥ none alpha beta
      else abMinGo G s (alphabeta G d) (m :: rest) ⊤ none alpha beta

/-! ### Timed searches

These embed the same two functions with the leading time check live:
`if self.time_left() < self.TIMER_THRESHOLD: raise Timeout()`.  A `Timer`
gives the value of `self.time_left()` at the `t`-th sample (samples happen
once per recursive entry, in call order, so the sample index is threaded
through the recursion).  A raised `Timeout` is the `none` result; a normal
return carries the `SearchResult` and the next sample index. -/

/-- The time source: `timeLeft t` is what `self.time_left()` returns at the
`t`-th sample, and `threshold` is `self.TIMER_THRESHOLD`. -/
structure Timer where
  timeLeft : Nat → ℚ
  threshold : ℚ

/-- Timed maximizing loop of `minimax`: each child call may raise `Timeout`
(`none`), which unwinds through the loop. -/
def mmMaxGoT (G : Game σ) (s : σ)
    (child : σ → Bool → Nat → Option ((Score × Option Move) × Nat)) :
    List Move → Score → Option Move → Nat → Option ((Score × Option Move) × Nat)
  | [], b, bm, t => some ((b, bm), t)
  | m :: rest, b, bm, t =>
    match child (G.forecast s m) false t with
    | none => none
    | some (r, t') =>
      if b < r.1 then mmMaxGoT G s child rest r.1 (some m) t'
      else mmMaxGoT G s child rest b bm t'

/-- Timed minimizing loop of `minimax`. -/
def mmMinGoT (G : Game σ) (s : σ)
    (child : σ → Bool → Nat → Option ((Score × Option Move) × Nat)) :
    List Move → Score → Option Move → Nat → Option ((Score × Option Move) × Nat)
  | [], b, bm, t => some ((b, bm), t)
  | m :: rest, b, bm, t =>
    match child (G.forecast s m) true t with
    | none => none
    | some (r, t') =>
      if r.1 < b then mmMinGoT G s child rest r.1 (some m) t'
      else mmMinGoT G s child rest b bm t'

/-- `CustomPlayer.minimax` with the time check (line 399-400) live: the
remaining time is sampled first on every entry, and `Timeout` (`none`) is
raised when it is below the threshold, before any result is produced. -/
def minimaxT (G : Game σ) (T : Timer) :
    Nat → σ → Bool → Nat → Option ((Score × Option Move) × Nat)
  | 0, s, _, t =>
    if T.timeLeft t < T.threshold then none
    else some ((G.eval s, some nullMove), t + 1)
  | d + 1, s, maxi, t =>
    if T.timeLeft t < T.threshold then none
    else
      match G.legal s with
      | [] => some ((G.utility s, some nullMove), t + 1)
      | m :: rest =>
        if maxi then mmMaxGoT G s (minimaxT G T d) (m :: rest) ⊥ none (t + 1)
        else mmMinGoT G s (minimaxT G T d) (m :: rest) ⊤ none (t + 1)

/-- Timed maximizing loop of `alphabeta`. -/
def abMaxGoT (G : Game σ) (s : σ)
    (child : σ → Score → Score → Bool → Nat → Option ((Score × Option Move) × Nat)) :
    List Move → Score → Option Move → Score → Score → Nat →
      Option ((Score × Option Move) × Nat)
  | [], b, bm, _, _, t => some ((b, bm), t)
  | m :: rest, b, bm, alpha, beta, t =>
    match child (G.forecast s m) alpha beta false t with
    | none => none
    | some (r, t') =>
      if b < r.1 then
        if beta ≤ r.1 then some ((r.1, some m), t')
        else abMaxGoT G s child rest r.1 (some m) (max alpha r.1) beta t'
      else
        if beta ≤ b then some ((b, bm), t')
        else abMaxGoT G s child rest b bm (max alpha b) beta t'

/-- Timed minimizing loop of `alphabeta`. -/
def abMinGoT (G : Game σ) (s : σ)
    (child : σ → Score → Score → Bool → Nat → Option ((Score × Option Move) × Nat)) :
    List Move → Score → Option Move → Score → Score → Nat →
      Option ((Score × Option Move) × Nat)
  | [], b, bm, _, _, t => some ((b, bm), t)
  | m :: rest, b, bm, alpha, beta, t =>
    match child (G.forecast s m) alpha beta true t with
    | none => none
    | some (r, t') =>
      if r.1 < b then
        if r.1 ≤ alpha then some ((r.1, some m), t')
        else abMinGoT G s child rest r.1 (some m) alpha (min beta r.1) t'
      else
        if b ≤ alpha then some ((b, bm), t')
        else abMinGoT G s child rest b bm alpha (min beta b) t'

/-- `CustomPlayer.alphabeta` with the time check (line 468-469) live. -/
def alphabetaT (G : Game σ) (T : Timer) :
    Nat → σ → Score → Score → Bool → Nat → Option ((Score × Option Move) × Nat)
  | 0, s, _, _, _, t =>
    if T.timeLeft t < T.threshold then none
    else some ((G.eval s, some nullMove), t + 1)
  | d + 1, s, alpha, beta, maxi, t =>
    if T.timeLeft t < T.threshold then none
    else
      match G.legal s with
      | [] => some ((G.utility s, some nullMove), t + 1)
      | m :: rest =>
        if maxi then abMaxGoT G s (alphabetaT G T d) (m :: rest) ⊥ none alpha beta (t + 1)
        else abMinGoT G s (alphabetaT G T d) (m :: rest) ⊤ none alpha beta (t + 1)

/-! ### `get_move` -/

/-- The configuration fields of `CustomPlayer` that `get_move` reads:
`self.search_depth`, `self.iterative` and `self.method` (a string, compared
against the literals `'minimax'` and `'alphabeta'`). -/
structure Config where
  search_depth : Nat
  iterative : Bool
  method : String

/-- The only exception `get_move` can let escape: the `ValueError` raised on
an unrecognized method name.  (`Timeout` is caught inside `get_move`.) -/
inductive PyErr where
  | valueError (msg : String) : PyErr
deriving DecidableEq

/-- The iterative-deepening `for depth in range(sys.maxsize)` loop
(lines 344-348): run `srch` at depth `d`, and on normal completion store its
move and continue at `d + 1`; on `Timeout` (`none`) fall out of the loop
keeping the previously stored move.  `fuel` is the number of remaining loop
iterations (`sys.maxsize` at the top). -/
def idLoop (srch : Nat → Nat → Option ((Score × Option Move) × Nat)) :
    Nat → Nat → Option Move → Nat → Option Move
  | 0, _, move, _ => move
  | fuel + 1, d, move, t =>
    match srch d t with
    | none => move
    | some (r, t') => idLoop srch fuel (d + 1) r.2 t'

/-- `CustomPlayer.get_move(game, legal_moves, time_left)` (lines 329-366).
`maxN` models `sys.maxsize` (the iteration bound of the deepening loop) and
`t` is the index of the next time sample.  Returns `.error` exactly when the
Python code raises `ValueError`; otherwise `.ok` with the returned value of
the `move` variable (`none` is Python's `None` placeholder, never
overwritten when every search times out). -/
def getMove (G : Game σ) (T : Timer) (cfg : Config) (maxN : Nat) (s : σ)
    (legal_moves : List Move) (t : Nat) : Except PyErr (Option Move) :=
  if legal_moves = [] then .ok (some nullMove)
  else if cfg.iterative then
    if cfg.method = "minimax" then
      .ok (idLoop (fun d u => minimaxT G T d s true u) maxN 0 none t)
    else if cfg.method = "alphabeta" then
      .ok (idLoop (fun d u => alphabetaT G T d s ⊥ ⊤ true u) maxN 0 none t)
    else .error (.valueError ("Unknown method " ++ cfg.method))
  else
    if cfg.method = "minimax" then
      .ok (match minimaxT G T cfg.search_depth s true t with
           | none => none
           | some (r, _) => r.2)
    else if cfg.method = "alphabeta" then
      .ok (match alphabetaT G T cfg.search_depth s ⊥ ⊤ true t with
           | none => none
           | some (r, _) => r.2)
    else .error (.valueError ("Unknown method " ++ cfg.method))

/-! ### Order helpers: folded maxima and minima of score lists -/

/-- Supremum of a list of scores (`⊥` for the empty list). -/
def supList (l : List Score) : Score := l.foldl max ⊥

/-- Infimum of a list of scores (`⊤` for the empty list). -/
def infList (l : List Score) : Score := l.foldl min ⊤

theorem foldl_max_eq (l : List Score) : ∀ b : Score, l.foldl max b = max b (supList l) := by
  induction l with
  | nil => intro b; simp [supList, max_eq_left bot_le]
  | cons x l ih =>
    intro b
    have hx : supList (x :: l) = List.foldl max (max ⊥ x) l := rfl
    rw [hx, max_eq_right (bot_le : (⊥ : Score) ≤ x), ih x]
    simp only [List.foldl_cons, ih (max b x), max_assoc]

theorem supList_cons (x : Score) (l : List Score) :
    supList (x :: l) = max x (supList l) := by
  have hx : supList (x :: l) = List.foldl max (max ⊥ x) l := rfl
  rw [hx, max_eq_right (bot_le : (⊥ : Score) ≤ x), foldl_max_eq]

theorem le_supList_of_mem {l : List Score} {a : Score} (h : a ∈ l) : a ≤ supList l := by
  induction l with
  | nil => cases h
  | cons x l ih =>
    rw [supList_cons]
    rcases List.mem_cons.mp h with rfl | h'
    · exact le_max_left _ _
    · exact le_trans (ih h') (le_max_right _ _)

theorem foldl_min_eq (l : List Score) : ∀ b : Score, l.foldl min b = min b (infList l) := by
  induction l with
  | nil => intro b; simp [infList, min_eq_left le_top]
  | cons x l ih =>
    intro b
    have hx : infList (x :: l) = List.foldl min (min ⊤ x) l := rfl
    rw [hx, min_eq_right (le_top : x ≤ (⊤ : Score)), ih x]
    simp only [List.foldl_cons, ih (min b x), min_assoc]

theorem infList_cons (x : Score) (l : List Score) :
    infList (x :: l) = min x (infList l) := by
  have hx : infList (x :: l) = List.foldl min (min ⊤ x) l := rfl
  rw [hx, min_eq_right (le_top : x ≤ (⊤ : Score)), foldl_min_eq]

theorem infList_le_of_mem {l : List Score} {a : Score} (h : a ∈ l) : infList l ≤ a := by
  induction l with
  | nil => cases h
  | cons x l ih =>
    rw [infList_cons]
    rcases List.mem_cons.mp h with rfl | h'
    · exact min_le_left _ _
    · exact le_trans (min_le_right _ _) (ih h')

/-! ### The minimax loops: value, constancy and tie-breaking -/

theorem mmMaxGo_fst (G : Game σ) (s : σ) (c : σ → Bool → Score × Option Move) :
    ∀ (ms : List Move) (b : Score) (bm : Option Move),
      (mmMaxGo G s c ms b bm).1 =
        max b (supList (ms.map fun m => (c (G.forecast s m) false).1)) := by
  intro ms
  induction ms with
  | nil => intro b bm; simp [mmMaxGo, supList, max_eq_left bot_le]
  | cons m rest ih =>
    intro b bm
    simp only [mmMaxGo, List.map_cons, supList_cons]
    by_cases hlt : b < (c (G.forecast s m) false).1
    · rw [if_pos hlt, ih]
      rw [← max_assoc, max_eq_right (le_of_lt hlt)]
    · rw [if_neg hlt, ih]
      rw [← max_assoc, max_eq_left (le_of_not_lt hlt)]

theorem mmMaxGo_const (G : Game σ) (s : σ) (c : σ → Bool → Score × Option Move) :
    ∀ (ms : List Move) (b : Score) (bm : Option Move),
      (∀ m ∈ ms, (c (G.forecast s m) false).1 ≤ b) →
      mmMaxGo G s c ms b bm = (b, bm) := by
  intro ms
  induction ms with
  | nil => intro b bm _; rfl
  | cons m rest ih =>
    intro b bm h
    simp only [mmMaxGo]
    rw [if_neg (not_lt.mpr (h m (List.mem_cons_self m rest)))]
    exact ih b bm fun m' hm' => h m' (List.mem_cons_of_mem _ hm')

theorem mmMinGo_fst (G : Game σ) (s : σ) (c : σ → Bool → Score × Option Move) :
    ∀ (ms : List Move) (b : Score) (bm : Option Move),
      (mmMinGo G s c ms b bm).1 =
        min b (infList (ms.map fun m => (c (G.forecast s m) true).1)) := by
  intro ms
  induction ms with
  | nil => intro b bm; simp [mmMinGo, infList, min_eq_left le_top]
  | cons m rest ih =>
    intro b bm
    simp only [mmMinGo, List.map_cons, infList_cons]
    by_cases hlt : (c (G.forecast s m) true).1 < b
    · rw [if_pos hlt, ih]
      rw [← min_assoc, min_eq_right (le_of_lt hlt)]
    · rw [if_neg hlt, ih]
      rw [← min_assoc, min_eq_left (le_of_not_lt hlt)]

theorem mmMinGo_const (G : Game σ) (s : σ) (c : σ → Bool → Score × Option Move) :
    ∀ (ms : List Move) (b : Score) (bm : Option Move),
      (∀ m ∈ ms, b ≤ (c (G.forecast s m) true).1) →
      mmMinGo G s c ms b bm = (b, bm) := by
  intro ms
  induction ms with
  | nil => intro b bm _; rfl
  | cons m rest ih =>
    intro m_1 bm h
    simp only [mmMinGo]
    rw [if_neg (not_lt.mpr (h m (List.mem_cons_self m rest)))]
    exact ih m_1 bm fun m' hm' => h m' (List.mem_cons_of_mem _ hm')

theorem mmMaxGo_find (G : Game σ) (s : σ) (c : σ → Bool → Score × Option Move) :
    ∀ (ms : List Move) (b : Score) (bm : Option Move),
      (∃ m ∈ ms, b < (c (G.forecast s m) false).1) →
      (mmMaxGo G s c ms b bm).2 =
        ms.find? fun m =>
          decide ((c (G.forecast s m) false).1 = (mmMaxGo G s c ms b bm).1) := by
  intro ms
  induction ms with
  | nil => rintro b bm ⟨m, hm, -⟩; cases hm
  | cons m rest ih =>
    intro b bm hex
    by_cases hlt : b < (c (G.forecast s m) false).1
    · have hgo : mmMaxGo G s c (m :: rest) b bm =
          mmMaxGo G s c rest (c (G.forecast s m) false).1 (some m) := by
        simp only [mmMaxGo]; rw [if_pos hlt]
      by_cases hex2 : ∃ m' ∈ rest, (c (G.forecast s m) false).1 < (c (G.forecast s m') false).1
      · -- a later move strictly improves on this one: the head cannot attain the final value
        have hne : ¬ ((c (G.forecast s m) false).1 = (mmMaxGo G s c (m :: rest) b bm).1) := by
          obtain ⟨m', hm', hm'lt⟩ := hex2
          have hS : (c (G.forecast s m) false).1 <
              supList (rest.map fun mv => (c (G.forecast s mv) false).1) :=
            lt_of_lt_of_le hm'lt
              (le_supList_of_mem (List.mem_map.mpr ⟨m', hm', rfl⟩))
          have : (c (G.forecast s m) false).1 < (mmMaxGo G s c (m :: rest) b bm).1 := by
            rw [hgo, mmMaxGo_fst]
            exact lt_of_lt_of_le hS (le_max_right _ _)
          exact ne_of_lt this
        rw [List.find?_cons_of_neg _ (by simpa using hne), hgo]
        exact ih _ _ hex2
      · -- the head attains the final value
        push_neg at hex2
        have hconst : mmMaxGo G s c rest (c (G.forecast s m) false).1 (some m) =
            ((c (G.forecast s m) false).1, some m) :=
          mmMaxGo_const G s c rest _ _ hex2
        rw [hgo, hconst]
        exact (List.find?_cons_of_pos _ (by simp)).symm
    · have hgo : mmMaxGo G s c (m :: rest) b bm = mmMaxGo G s c rest b bm := by
        simp only [mmMaxGo]; rw [if_neg hlt]
      have hex3 : ∃ m' ∈ rest, b < (c (G.forecast s m') false).1 := by
        obtain ⟨m', hm', hbm'⟩ := hex
        rcases List.mem_cons.mp hm' with rfl | h'
        · exact absurd hbm' hlt
        · exact ⟨m', h', hbm'⟩
      have hne : ¬ ((c (G.forecast s m) false).1 = (mmMaxGo G s c (m :: rest) b bm).1) := by
        obtain ⟨m', hm', hbm'⟩ := hex3
        have hS : b < supList (rest.map fun mv => (c (G.forecast s mv) false).1) :=
          lt_of_lt_of_le hbm' (le_supList_of_mem (List.mem_map.mpr ⟨m', hm', rfl⟩))
        have : (c (G.forecast s m) false).1 < (mmMaxGo G s c (m :: rest) b bm).1 := by
          rw [hgo, mmMaxGo_fst]
          exact lt_of_le_of_lt (le_of_not_lt hlt)
            (lt_of_lt_of_le hS (le_max_right _ _))
        exact ne_of_lt this
      rw [List.find?_cons_of_neg _ (by simpa using hne), hgo]
      exact ih _ _ hex3

theorem mmMinGo_find (G : Game σ) (s : σ) (c : σ → Bool → Score × Option Move) :
    ∀ (ms : List Move) (b : Score) (bm : Option Move),
      (∃ m ∈ ms, (c (G.forecast s m) true).1 < b) →
      (mmMinGo G s c ms b bm).2 =
        ms.find? fun m =>
          decide ((c (G.forecast s m) true).1 = (mmMinGo G s c ms b bm).1) := by
  intro ms
  induction ms with
  | nil => rintro b bm ⟨m, hm, -⟩; cases hm
  | cons m rest ih =>
    intro b bm hex
    by_cases hlt : (c (G.forecast s m) true).1 < b
    · have hgo : mmMinGo G s c (m :: rest) b bm =
          mmMinGo G s c rest (c (G.forecast s m) true).1 (some m) := by
        simp only [mmMinGo]; rw [if_pos hlt]
      by_cases hex2 : ∃ m' ∈ rest, (c (G.forecast s m') true).1 < (c (G.forecast s m) true).1
      · have hne : ¬ ((c (G.forecast s m) true).1 = (mmMinGo G s c (m :: rest) b bm).1) := by
          obtain ⟨m', hm', hm'lt⟩ := hex2
          have hS : infList (rest.map fun mv => (c (G.forecast s mv) true).1) <
              (c (G.forecast s m) true).1 :=
            lt_of_le_of_lt (infList_le_of_mem (List.mem_map.mpr ⟨m', hm', rfl⟩)) hm'lt
          have : (mmMinGo G s c (m :: rest) b bm).1 < (c (G.forecast s m) true).1 := by
            rw [hgo, mmMinGo_fst]
            exact lt_of_le_of_lt (min_le_right _ _) hS
          exact (ne_of_lt this).symm
        rw [List.find?_cons_of_neg _ (by simpa using hne), hgo]
        exact ih _ _ hex2
      · push_neg at hex2
        have hconst : mmMinGo G s c rest (c (G.forecast s m) true).1 (some m) =
            ((c (G.forecast s m) true).1, some m) :=
          mmMinGo_const G s c rest _ _ hex2
        rw [hgo, hconst]
        exact (List.find?_cons_of_pos _ (by simp)).symm
    · have hgo : mmMinGo G s c (m :: rest) b bm = mmMinGo G s c rest b bm := by
        simp only [mmMinGo]; rw [if_neg hlt]
      have hex3 : ∃ m' ∈ rest, (c (G.forecast s m') true).1 < b := by
        obtain ⟨m', hm', hbm'⟩ := hex
        rcases List.mem_cons.mp hm' with rfl | h'
        · exact absurd hbm' hlt
        · exact ⟨m', h', hbm'⟩
      have hne : ¬ ((c (G.forecast s m) true).1 = (mmMinGo G s c (m :: rest) b bm).1) := by
        obtain ⟨m', hm', hbm'⟩ := hex3
        have hS : infList (rest.map fun mv => (c (G.forecast s mv) true).1) < b :=
          lt_of_le_of_lt (infList_le_of_mem (List.mem_map.mpr ⟨m', hm', rfl⟩)) hbm'
        have : (mmMinGo G s c (m :: rest) b bm).1 < (c (G.forecast s m) true).1 := by
          rw [hgo, mmMinGo_fst]
          exact lt_of_lt_of_le (lt_of_le_of_lt (min_le_right _ _) hS)
            (le_of_not_lt hlt)
        exact (ne_of_lt this).symm
      rw [List.find?_cons_of_neg _ (by simpa using hne), hgo]
      exact ih _ _ hex3

/-! ### Unfolding lemmas for the searches -/

theorem minimax_zero (G : Game σ) (s : σ) (maxi : Bool) :
    minimax G 0 s maxi = (G.eval s, some nullMove) := rfl

theorem minimax_succ_nil (G : Game σ) (s : σ) (d : Nat) (maxi : Bool)
    (h : G.legal s = []) :
    minimax G (d + 1) s maxi = (G.utility s, some nullMove) := by
  simp [minimax, h]

theorem minimax_succ_max (G : Game σ) (s : σ) (d : Nat) {m : Move} {rest : List Move}
    (h : G.legal s = m :: rest) :
    minimax G (d + 1) s true = mmMaxGo G s (minimax G d) (m :: rest) ⊥ none := by
  simp [minimax, h]

theorem minimax_succ_min (G : Game σ) (s : σ) (d : Nat) {m : Move} {rest : List Move}
    (h : G.legal s = m :: rest) :
    minimax G (d + 1) s false = mmMinGo G s (minimax G d) (m :: rest) ⊤ none := by
  simp [minimax, h]

theorem alphabeta_zero (G : Game σ) (s : σ) (alpha beta : Score) (maxi : Bool) :
    alphabeta G 0 s alpha beta maxi = (G.eval s, some nullMove) := rfl

theorem alphabeta_succ_nil (G : Game σ) (s : σ) (d : Nat) (alpha beta : Score)
    (maxi : Bool) (h : G.legal s = []) :
    alphabeta G (d + 1) s alpha beta maxi = (G.utility s, some nullMove) := by
  simp [alphabeta, h]

theorem alphabeta_succ_max (G : Game σ) (s : σ) (d : Nat) (alpha beta : Score)
    {m : Move} {rest : List Move} (h : G.legal s = m :: rest) :
    alphabeta G (d + 1) s alpha beta true =
      abMaxGo G s (alphabeta G d) (m :: rest) ⊥ none alpha beta := by
  simp [alphabeta, h]

theorem alphabeta_succ_min (G : Game σ) (s : σ) (d : Nat) (alpha beta : Score)
    {m : Move} {rest : List Move} (h : G.legal s = m :: rest) :
    alphabeta G (d + 1) s alpha beta false =
      abMinGo G s (alphabeta G d) (m :: rest) ⊤ none alpha beta := by
  simp [alphabeta, h]

/-- The value of a maximizing `minimax` layer is the supremum of the child
values, in the order the code folds them. -/
theorem minimax_fst_max (G : Game σ) (s : σ) (d : Nat) {m : Move} {rest : List Move}
    (h : G.legal s = m :: rest) :
    (minimax G (d + 1) s true).1 =
      supList ((m :: rest).map fun mv => (minimax G d (G.forecast s mv) false).1) := by
  rw [minimax_succ_max G s d h, mmMaxGo_fst, max_eq_right bot_le]

/-- The value of a minimizing `minimax` layer is the infimum of the child
values. -/
theorem minimax_fst_min (G : Game σ) (s : σ) (d : Nat) {m : Move} {rest : List Move}
    (h : G.legal s = m :: rest) :
    (minimax G (d + 1) s false).1 =
      infList ((m :: rest).map fun mv => (minimax G d (G.forecast s mv) true).1) := by
  rw [minimax_succ_min G s d h, mmMinGo_fst, min_eq_right le_top]

/-! ### Fail-soft alpha-beta correctness

`FSat g v alpha beta` is the classical fail-soft relation between the score
`g` returned by an alpha-beta search with window `(alpha, beta)` and the
corresponding plain minimax score `v`: a fail-low result is an upper bound,
a fail-high result is a lower bound, and a result inside the window is
exact. -/

/-- Fail-soft window relation. -/
def FSat (g v alpha beta : Score) : Prop :=
  (g ≤ alpha → v ≤ g) ∧ (beta ≤ g → g ≤ v) ∧ (alpha < g → g < beta → g = v)

/-- Loop invariant of the maximizing alpha-beta loop.  `cab` is the
alpha-beta recursion at the child depth, `cmm` the minimax recursion at the
child depth, related pointwise by `FSat`.  Starting the loop with running
best `b` and alpha argument `max alpha0 b` (the code keeps
`alpha = max(alpha, best_score)`), the result is at least `b` and is
`FSat`-related to the true value `max b (sup of the child minimax values)`
for the original window `(alpha0, beta)`. -/
theorem abMaxGo_spec (G : Game σ) (s : σ)
    (cab : σ → Score → Score → Bool → Score × Option Move)
    (cmm : σ → Bool → Score × Option Move)
    (hFS : ∀ s' a' b', a' < b' →
      FSat (cab s' a' b' false).1 (cmm s' false).1 a' b')
    (beta : Score) :
    ∀ (ms : List Move) (b : Score) (bm : Option Move) (alpha0 : Score),
      b < beta → alpha0 < beta →
      b ≤ (abMaxGo G s cab ms b bm (max alpha0 b) beta).1 ∧
      FSat (abMaxGo G s cab ms b bm (max alpha0 b) beta).1
        (max b (supList (ms.map fun m => (cmm (G.forecast s m) false).1)))
        alpha0 beta := by
  intro ms
  induction ms with
  | nil =>
    intro b bm alpha0 hb ha
    have hM : max b (supList (([] : List Move).map fun m =>
        (cmm (G.forecast s m) false).1)) = b := by
      simp [supList, max_eq_left bot_le]
    rw [hM]
    exact ⟨le_refl b, fun _ => le_refl b, fun _ => le_refl b, fun _ _ => rfl⟩
  | cons m rest ih =>
    intro b bm alpha0 hb ha
    have hab : max alpha0 b < beta := max_lt ha hb
    obtain ⟨hfs1, hfs2, hfs3⟩ := hFS (G.forecast s m) (max alpha0 b) beta hab
    simp only [abMaxGo, List.map_cons, supList_cons]
    set sc := (cab (G.forecast s m) (max alpha0 b) beta false).1 with hsc_def
    set u := (cmm (G.forecast s m) false).1 with hu_def
    set S := supList (rest.map fun mv => (cmm (G.forecast s mv) false).1) with hS_def
    by_cases hlt : b < sc
    · rw [if_pos hlt]
      by_cases hcut : beta ≤ sc
      · rw [if_pos hcut]
        refine ⟨le_of_lt hlt, fun hle => ?_, fun _ => ?_, fun _ hcon => ?_⟩
        · exact absurd hle (not_le.mpr (lt_of_lt_of_le ha hcut))
        · exact le_trans (hfs2 hcut)
            (le_trans (le_max_left u S) (le_max_right b (max u S)))
        · exact absurd hcon (not_lt.mpr hcut)
      · rw [if_neg hcut]
        have harw : max (max alpha0 b) sc = max alpha0 sc := by
          rw [max_assoc, max_eq_right (le_of_lt hlt)]
        rw [harw]
        obtain ⟨ih1, ihA, ihB, ihC⟩ := ih sc (some m) alpha0 (not_le.mp hcut) ha
        by_cases hexact : max alpha0 b < sc
        · have hscu : sc = u := hfs3 hexact (not_le.mp hcut)
          refine ⟨le_trans (le_of_lt hlt) ih1, fun hga => ?_, fun hbg => ?_,
            fun hag hgb => ?_⟩
          · exact absurd (le_trans ih1 hga)
              (not_le.mpr (lt_of_le_of_lt (le_max_left alpha0 b) hexact))
          · have h2 : (max sc S : Score) = max u S := by rw [hscu]
            exact le_trans (le_trans (ihB hbg) (le_of_eq h2)) (le_max_right b _)
          · have hgM := ihC hag hgb
            have h2 : (max sc S : Score) = max u S := by rw [hscu]
            rw [hgM, h2]
            exact (max_eq_right (le_trans (le_of_lt (hscu ▸ hlt))
              (le_max_left u S))).symm
        · have hsm : sc ≤ max alpha0 b := not_lt.mp hexact
          have hsa : sc ≤ alpha0 := by
            rcases le_max_iff.mp hsm with h | h
            · exact h
            · exact absurd hlt (not_lt.mpr h)
          have hus : u ≤ sc := hfs1 hsm
          refine ⟨le_trans (le_of_lt hlt) ih1, fun hga => ?_, fun hbg => ?_,
            fun hag hgb => ?_⟩
          · have hM' := ihA hga
            exact max_le (le_trans (le_of_lt hlt) ih1)
              (max_le (le_trans hus (le_trans (le_max_left sc S) hM'))
                (le_trans (le_max_right sc S) hM'))
          · have hgsc := ihB hbg
            have hscg : sc < (abMaxGo G s cab rest sc (some m) (max alpha0 sc) beta).1 :=
              lt_of_le_of_lt hsa (lt_of_lt_of_le ha hbg)
            rcases le_max_iff.mp hgsc with h | h
            · exact absurd h (not_le.mpr hscg)
            · exact le_trans h (le_trans (le_max_right u S) (le_max_right b _))
          · have hgM := ihC hag hgb
            rcases max_choice sc S with hc | hc
            · rw [hc] at hgM
              exact absurd hag (not_lt.mpr (by rw [hgM]; exact hsa))
            · rw [hc] at hgM
              rw [hgM]
              have hbS : b ≤ S := by
                rw [← hgM]
                exact le_trans (le_of_lt hlt) ih1
              have huS : u ≤ S := by
                rw [← hgM]
                exact le_trans hus (le_trans hsa (le_of_lt hag))
              rw [max_eq_right huS, max_eq_right hbS]
    · rw [if_neg hlt]
      have hsb : sc ≤ b := not_lt.mp hlt
      have hus : u ≤ sc := hfs1 (le_trans hsb (le_max_right alpha0 b))
      rw [if_neg (not_le.mpr hb)]
      have harw2 : max (max alpha0 b) b = max alpha0 b := by
        rw [max_assoc, max_self]
      rw [harw2]
      have hMM : max b (max u S) = max b S := by
        rw [← max_assoc, max_eq_left (le_trans hus hsb)]
      rw [hMM]
      exact ih b bm alpha0 hb ha

/-- Loop invariant of the minimizing alpha-beta loop, dual to
`abMaxGo_spec`. -/
theorem abMinGo_spec (G : Game σ) (s : σ)
    (cab : σ → Score → Score → Bool → Score × Option Move)
    (cmm : σ → Bool → Score × Option Move)
    (hFS : ∀ s' a' b', a' < b' →
      FSat (cab s' a' b' true).1 (cmm s' true).1 a' b')
    (alpha : Score) :
    ∀ (ms : List Move) (b : Score) (bm : Option Move) (beta0 : Score),
      alpha < b → alpha < beta0 →
      (abMinGo G s cab ms b bm alpha (min beta0 b)).1 ≤ b ∧
      FSat (abMinGo G s cab ms b bm alpha (min beta0 b)).1
        (min b (infList (ms.map fun m => (cmm (G.forecast s m) true).1)))
        alpha beta0 := by
  intro ms
  induction ms with
  | nil =>
    intro b bm beta0 hb ha
    have hM : min b (infList (([] : List Move).map fun m =>
        (cmm (G.forecast s m) true).1)) = b := by
      simp [infList, min_eq_left le_top]
    rw [hM]
    exact ⟨le_refl b, fun _ => le_refl b, fun _ => le_refl b, fun _ _ => rfl⟩
  | cons m rest ih =>
    intro b bm beta0 hb ha
    have hab : alpha < min beta0 b := lt_min ha hb
    obtain ⟨hfs1, hfs2, hfs3⟩ := hFS (G.forecast s m) alpha (min beta0 b) hab
    simp only [abMinGo, List.map_cons, infList_cons]
    set sc := (cab (G.forecast s m) alpha (min beta0 b) true).1 with hsc_def
    set u := (cmm (G.forecast s m) true).1 with hu_def
    set S := infList (rest.map fun mv => (cmm (G.forecast s mv) true).1) with hS_def
    by_cases hlt : sc < b
    · rw [if_pos hlt]
      by_cases hcut : sc ≤ alpha
      · rw [if_pos hcut]
        refine ⟨le_of_lt hlt, fun _ => ?_, fun hge => ?_, fun hcon _ => ?_⟩
        · exact le_trans (le_trans (min_le_right b (min u S)) (min_le_left u S))
            (hfs1 hcut)
        · exact absurd hge (not_le.mpr (lt_of_le_of_lt hcut ha))
        · exact absurd hcon (not_lt.mpr hcut)
      · rw [if_neg hcut]
        have harw : min (min beta0 b) sc = min beta0 sc := by
          rw [min_assoc, min_eq_right (le_of_lt hlt)]
        rw [harw]
        obtain ⟨ih1, ihA, ihB, ihC⟩ := ih sc (some m) beta0 (not_le.mp hcut) ha
        by_cases hexact : sc < min beta0 b
        · have hscu : sc = u := hfs3 (not_le.mp hcut) hexact
          refine ⟨le_trans ih1 (le_of_lt hlt), fun hga => ?_, fun hbg => ?_,
            fun hag hgb => ?_⟩
          · have h2 : (min sc S : Score) = min u S := by rw [hscu]
            exact le_trans (min_le_right b (min u S))
              (le_trans (le_of_eq h2.symm) (ihA hga))
          · exact absurd (le_trans hbg ih1)
              (not_le.mpr (lt_of_lt_of_le hexact (min_le_left beta0 b)))
          · have hgM := ihC hag hgb
            have h2 : (min sc S : Score) = min u S := by rw [hscu]
            rw [hgM, h2]
            exact (min_eq_right (le_trans (min_le_left u S)
              (le_of_lt (hscu ▸ hlt)))).symm
        · have hsm : min beta0 b ≤ sc := not_lt.mp hexact
          have hsa : beta0 ≤ sc := by
            rcases min_le_iff.mp hsm with h | h
            · exact h
            · exact absurd hlt (not_lt.mpr h)
          have hus : sc ≤ u := hfs2 hsm
          refine ⟨le_trans ih1 (le_of_lt hlt), fun hga => ?_, fun hbg => ?_,
            fun hag hgb => ?_⟩
          · have hgs := ihA hga
            have hscg : (abMinGo G s cab rest sc (some m) alpha (min beta0 sc)).1 < sc :=
              lt_of_le_of_lt hga (lt_of_lt_of_le ha hsa)
            rcases min_le_iff.mp hgs with h | h
            · exact absurd h (not_le.mpr hscg)
            · exact le_trans (le_trans (min_le_right b (min u S)) (min_le_right u S)) h
          · exact le_min (le_trans ih1 (le_of_lt hlt))
              (le_min (le_trans ih1 hus)
                (le_trans (ihB hbg) (min_le_right sc S)))
          · have hgM := ihC hag hgb
            rcases min_choice sc S with hc | hc
            · rw [hc] at hgM
              exact absurd hgb (not_lt.mpr (by rw [hgM]; exact hsa))
            · rw [hc] at hgM
              rw [hgM]
              have hbS : S ≤ b := by
                rw [← hgM]
                exact le_trans ih1 (le_of_lt hlt)
              have huS : S ≤ u := by
                rw [← hgM]
                exact le_trans (le_of_lt hgb) (le_trans hsa hus)
              rw [min_eq_right huS, min_eq_right hbS]
    · rw [if_neg hlt]
      have hsb : b ≤ sc := not_lt.mp hlt
      have hus : sc ≤ u := hfs2 (le_trans (min_le_right beta0 b) hsb)
      rw [if_neg (not_le.mpr hb)]
      have harw2 : min (min beta0 b) b = min beta0 b := by
        rw [min_assoc, min_self]
      rw [harw2]
      have hMM : min b (min u S) = min b S := by
        rw [← min_assoc, min_eq_left (le_trans hsb hus)]
      rw [hMM]
      exact ih b bm beta0 hb ha

/-- Alpha-beta is fail-soft correct with respect to minimax: at any depth,
state and search window `(alpha, beta)` with `alpha < beta`, the returned
score is `FSat`-related to the minimax score. -/
theorem alphabeta_minimax_FSat (G : Game σ) :
    ∀ (d : Nat) (s : σ) (alpha beta : Score) (maxi : Bool), alpha < beta →
      FSat (alphabeta G d s alpha beta maxi).1 (minimax G d s maxi).1 alpha beta := by
  intro d
  induction d with
  | zero =>
    intro s alpha beta maxi _
    exact ⟨fun _ => le_refl _, fun _ => le_refl _, fun _ _ => rfl⟩
  | succ d ih =>
    intro s alpha beta maxi hab
    cases hlm : G.legal s with
    | nil =>
      rw [alphabeta_succ_nil G s d alpha beta maxi hlm,
        minimax_succ_nil G s d maxi hlm]
      exact ⟨fun _ => le_refl _, fun _ => le_refl _, fun _ _ => rfl⟩
    | cons m rest =>
      cases maxi with
      | true =>
        rw [alphabeta_succ_max G s d alpha beta hlm, minimax_succ_max G s d hlm]
        have hbot : (⊥ : Score) < beta := lt_of_le_of_lt bot_le hab
        have h := abMaxGo_spec G s (alphabeta G d) (minimax G d)
          (fun s' a' b' h' => ih s' a' b' false h') beta (m :: rest) ⊥ none
          alpha hbot hab
        rw [max_eq_left bot_le] at h
        rw [mmMaxGo_fst]
        exact h.2
      | false =>
        rw [alphabeta_succ_min G s d alpha beta hlm, minimax_succ_min G s d hlm]
        have htop : alpha < (⊤ : Score) := lt_of_lt_of_le hab le_top
        have h := abMinGo_spec G s (alphabeta G d) (minimax G d)
          (fun s' a' b' h' => ih s' a' b' true h') alpha (m :: rest) ⊤ none
          beta htop hab
        rw [min_eq_left le_top] at h
        rw [mmMinGo_fst]
        exact h.2

/-- Attainment: if a folded supremum exceeds `c`, some list element does. -/
theorem exists_lt_supList {l : List Score} {c : Score} (h : c < supList l) :
    ∃ x ∈ l, c < x := by
  induction l with
  | nil => exact absurd h (not_lt.mpr bot_le)
  | cons x l ih =>
    rw [supList_cons] at h
    rcases lt_max_iff.mp h with h1 | h2
    · exact ⟨x, List.mem_cons_self x l, h1⟩
    · obtain ⟨y, hy, hcy⟩ := ih h2
      exact ⟨y, List.mem_cons_of_mem _ hy, hcy⟩

/-- Attainment: if a folded infimum is below `c`, some list element is. -/
theorem exists_infList_lt {l : List Score} {c : Score} (h : infList l < c) :
    ∃ x ∈ l, x < c := by
  induction l with
  | nil => exact absurd h (not_lt.mpr le_top)
  | cons x l ih =>
    rw [infList_cons] at h
    rcases min_lt_iff.mp h with h1 | h2
    · exact ⟨x, List.mem_cons_self x l, h1⟩
    · obtain ⟨y, hy, hcy⟩ := ih h2
      exact ⟨y, List.mem_cons_of_mem _ hy, hcy⟩

/-- With the full window (`alpha = b` running best, `beta = ⊤`), the
maximizing alpha-beta loop computes the exact supremum of the child minimax
values and makes exactly the same replacements as the minimax loop: it is
constant when no child improves on `b`, and otherwise selects the first move
attaining the final score. -/
theorem abMaxGo_root (G : Game σ) (s : σ)
    (cab : σ → Score → Score → Bool → Score × Option Move)
    (cmm : σ → Bool → Score × Option Move)
    (hFS : ∀ s' a' b', a' < b' →
      FSat (cab s' a' b' false).1 (cmm s' false).1 a' b') :
    ∀ (ms : List Move) (b : Score) (bm : Option Move), b < ⊤ →
      (abMaxGo G s cab ms b bm b ⊤).1 =
        max b (supList (ms.map fun m => (cmm (G.forecast s m) false).1)) ∧
      ((∀ m ∈ ms, (cmm (G.forecast s m) false).1 ≤ b) →
        abMaxGo G s cab ms b bm b ⊤ = (b, bm)) ∧
      ((∃ m ∈ ms, b < (cmm (G.forecast s m) false).1) →
        (abMaxGo G s cab ms b bm b ⊤).2 =
          ms.find? fun m =>
            decide ((cmm (G.forecast s m) false).1 = (abMaxGo G s cab ms b bm b ⊤).1)) := by
  intro ms
  induction ms with
  | nil =>
    intro b bm _
    refine ⟨?_, fun _ => rfl, ?_⟩
    · simp [abMaxGo, supList, max_eq_left bot_le]
    · rintro ⟨m, hm, -⟩; cases hm
  | cons m rest ih =>
    intro b bm hbtop
    obtain ⟨hfs1, hfs2, hfs3⟩ := hFS (G.forecast s m) b ⊤ hbtop
    set sc := (cab (G.forecast s m) b ⊤ false).1 with hsc_def
    set u := (cmm (G.forecast s m) false).1 with hu_def
    set S := supList (rest.map fun mv => (cmm (G.forecast s mv) false).1) with hS_def
    have hMcons : max b (supList ((m :: rest).map fun mv =>
        (cmm (G.forecast s mv) false).1)) = max b (max u S) := by
      rw [List.map_cons, supList_cons]
    rw [hMcons]
    by_cases hlt : b < sc
    · have hscu : sc = u := by
        by_cases hst : sc < ⊤
        · exact hfs3 hlt hst
        · have h1 : sc = ⊤ := top_le_iff.mp (not_lt.mp hst)
          have h2 : sc ≤ u := hfs2 (le_of_eq h1.symm)
          exact le_antisymm h2 (le_trans le_top (le_of_eq h1.symm))
      by_cases hcut : (⊤ : Score) ≤ sc
      · have habgo : abMaxGo G s cab (m :: rest) b bm b ⊤ = (sc, some m) := by
          simp only [abMaxGo]
          rw [if_pos hlt, if_pos hcut]
        rw [habgo]
        have hsctop : sc = ⊤ := top_le_iff.mp hcut
        refine ⟨?_, fun hall => ?_, fun _ => ?_⟩
        · show sc = max b (max u S)
          rw [← hscu, hsctop, max_eq_left le_top, max_eq_right le_top]
        · exact absurd (hall m (List.mem_cons_self m rest))
            (not_le.mpr (lt_of_lt_of_le hlt (le_of_eq hscu)))
        · show some m = List.find? _ (m :: rest)
          exact (List.find?_cons_of_pos _
            (by simp only [decide_eq_true_eq]; rw [← hu_def, ← hscu])).symm
      · have habgo : abMaxGo G s cab (m :: rest) b bm b ⊤ =
            abMaxGo G s cab rest sc (some m) sc ⊤ := by
          simp only [abMaxGo]
          rw [if_pos hlt, if_neg hcut, max_eq_right (le_of_lt hlt)]
        rw [habgo]
        obtain ⟨ih1, ih2, ih3⟩ := ih sc (some m) (not_le.mp hcut)
        have hbu : b < u := lt_of_lt_of_le hlt (le_of_eq hscu)
        refine ⟨?_, fun hall => ?_, fun _ => ?_⟩
        · rw [ih1, hscu]
          exact (max_eq_right (le_trans (le_of_lt hbu) (le_max_left u S))).symm
        · exact absurd (hall m (List.mem_cons_self m rest)) (not_le.mpr hbu)
        · by_cases hex2 : ∃ m' ∈ rest, sc < (cmm (G.forecast s m') false).1
          · have hne : ¬ ((cmm (G.forecast s m) false).1 =
                (abMaxGo G s cab rest sc (some m) sc ⊤).1) := by
              rw [← hu_def]
              obtain ⟨m', hm', hm'lt⟩ := hex2
              have hS2 : sc < S :=
                lt_of_lt_of_le hm'lt
                  (le_supList_of_mem (List.mem_map.mpr ⟨m', hm', rfl⟩))
              have : u < (abMaxGo G s cab rest sc (some m) sc ⊤).1 := by
                rw [ih1, ← hscu]
                exact lt_of_lt_of_le hS2 (le_max_right sc S)
              exact ne_of_lt this
            rw [List.find?_cons_of_neg _ (by simpa using hne)]
            exact ih3 hex2
          · push_neg at hex2
            rw [ih2 hex2]
            show some m = List.find? _ (m :: rest)
            exact (List.find?_cons_of_pos _
              (by simp only [ih2 hex2, decide_eq_true_eq]
                  rw [← hu_def, ← hscu])).symm
    · have hsb : sc ≤ b := not_lt.mp hlt
      have hub : u ≤ b := le_trans (hfs1 hsb) hsb
      have habgo : abMaxGo G s cab (m :: rest) b bm b ⊤ =
          abMaxGo G s cab rest b bm b ⊤ := by
        simp only [abMaxGo]
        rw [if_neg hlt, if_neg (not_le.mpr hbtop), max_self]
      rw [habgo]
      obtain ⟨ih1, ih2, ih3⟩ := ih b bm hbtop
      have hMM : max b (max u S) = max b S := by
        rw [← max_assoc, max_eq_left hub]
      refine ⟨?_, fun hall => ?_, fun hex => ?_⟩
      · rw [hMM]; exact ih1
      · exact ih2 fun m' hm' => hall m' (List.mem_cons_of_mem _ hm')
      · have hex3 : ∃ m' ∈ rest, b < (cmm (G.forecast s m') false).1 := by
          obtain ⟨m', hm', hbm'⟩ := hex
          rcases List.mem_cons.mp hm' with rfl | h'
          · exact absurd hbm' (not_lt.mpr hub)
          · exact ⟨m', h', hbm'⟩
        have hne : ¬ ((cmm (G.forecast s m) false).1 =
            (abMaxGo G s cab rest b bm b ⊤).1) := by
          rw [← hu_def]
          obtain ⟨m', hm', hbm'⟩ := hex3
          have hS2 : b < S :=
            lt_of_lt_of_le hbm'
              (le_supList_of_mem (List.mem_map.mpr ⟨m', hm', rfl⟩))
          have : u < (abMaxGo G s cab rest b bm b ⊤).1 := by
            rw [ih1]
            exact lt_of_le_of_lt hub (lt_of_lt_of_le hS2 (le_max_right b S))
          exact ne_of_lt this
        rw [List.find?_cons_of_neg _ (by simpa using hne)]
        exact ih3 hex3

/-- C1: for every game interface, state and depth, `alphabeta` called with
the initial window `alpha = -inf`, `beta = +inf` returns the same score as
`minimax` on that state and depth (for either value of the maximizing flag),
assuming the time check never fires during either search. -/
theorem C1_alphabeta_minimax_same_score (G : Game σ) (d : Nat) (s : σ)
    (maxi : Bool) :
    (alphabeta G d s ⊥ ⊤ maxi).1 = (minimax G d s maxi).1 := by
  obtain ⟨h1, h2, h3⟩ := alphabeta_minimax_FSat G d s ⊥ ⊤ maxi bot_lt_top
  rcases le_or_lt (alphabeta G d s ⊥ ⊤ maxi).1 ⊥ with hle | hgt
  · have hg : (alphabeta G d s ⊥ ⊤ maxi).1 = ⊥ := le_bot_iff.mp hle
    have hv : (minimax G d s maxi).1 ≤ ⊥ := hg ▸ h1 hle
    rw [hg, le_bot_iff.mp hv]
  · rcases le_or_lt ⊤ (alphabeta G d s ⊥ ⊤ maxi).1 with htop | hlt
    · have hg : (alphabeta G d s ⊥ ⊤ maxi).1 = ⊤ := top_le_iff.mp htop
      have hv : (⊤ : Score) ≤ (minimax G d s maxi).1 := hg ▸ h2 htop
      rw [hg, top_le_iff.mp hv]
    · exact h3 hgt hlt

/-- At the root window and a maximizing layer, alphabeta selects exactly the
same move as minimax whenever the optimal score is not `-inf`. -/
theorem alphabeta_minimax_same_move (G : Game σ) (d : Nat) (s : σ)
    {m : Move} {rest : List Move} (hlm : G.legal s = m :: rest)
    (hv : ⊥ < (minimax G (d + 1) s true).1) :
    (alphabeta G (d + 1) s ⊥ ⊤ true).2 = (minimax G (d + 1) s true).2 := by
  have hFS : ∀ s' a' b', a' < b' →
      FSat (alphabeta G d s' a' b' false).1 (minimax G d s' false).1 a' b' :=
    fun s' a' b' h' => alphabeta_minimax_FSat G d s' a' b' false h'
  obtain ⟨r1, r2, r3⟩ := abMaxGo_root G s (alphabeta G d) (minimax G d) hFS
    (m :: rest) ⊥ none bot_lt_top
  have hex : ∃ mv ∈ m :: rest, ⊥ < (minimax G d (G.forecast s mv) false).1 := by
    rw [minimax_fst_max G s d hlm] at hv
    obtain ⟨x, hxmem, hx⟩ := exists_lt_supList hv
    obtain ⟨mv, hmv, rfl⟩ := List.mem_map.mp hxmem
    exact ⟨mv, hmv, hx⟩
  rw [alphabeta_succ_max G s d ⊥ ⊤ hlm, minimax_succ_max G s d hlm]
  rw [r3 hex, mmMaxGo_find G s (minimax G d) (m :: rest) ⊥ none hex]
  have hsame : (abMaxGo G s (alphabeta G d) (m :: rest) ⊥ none ⊥ ⊤).1 =
      (mmMaxGo G s (minimax G d) (m :: rest) ⊥ none).1 := by
    rw [r1, mmMaxGo_fst]
  rw [hsame]

/-- C2 (amended): in both `minimax` and `alphabeta`, the running best is
replaced only on strict improvement, so whenever the optimal score is not
the maximizing layer's initial `-inf` (dually, not the minimizing layer's
initial `+inf`), the move returned is the first move in the Board's
enumeration order whose child score equals the optimal score; and at the
root window alphabeta returns the same move as minimax. -/
theorem C2_first_best_move (G : Game σ) (s : σ) (d : Nat) (m : Move)
    (rest : List Move) (hlm : G.legal s = m :: rest)
    (hmax : ⊥ < (minimax G (d + 1) s true).1)
    (hmin : (minimax G (d + 1) s false).1 < ⊤) :
    (minimax G (d + 1) s true).2 =
      (m :: rest).find? (fun mv =>
        decide ((minimax G d (G.forecast s mv) false).1 =
          (minimax G (d + 1) s true).1)) ∧
    (minimax G (d + 1) s false).2 =
      (m :: rest).find? (fun mv =>
        decide ((minimax G d (G.forecast s mv) true).1 =
          (minimax G (d + 1) s false).1)) ∧
    (alphabeta G (d + 1) s ⊥ ⊤ true).2 = (minimax G (d + 1) s true).2 := by
  refine ⟨?_, ?_, alphabeta_minimax_same_move G d s hlm hmax⟩
  · have hex : ∃ mv ∈ m :: rest, ⊥ < (minimax G d (G.forecast s mv) false).1 := by
      rw [minimax_fst_max G s d hlm] at hmax
      obtain ⟨x, hxmem, hx⟩ := exists_lt_supList hmax
      obtain ⟨mv, hmv, rfl⟩ := List.mem_map.mp hxmem
      exact ⟨mv, hmv, hx⟩
    rw [minimax_succ_max G s d hlm]
    exact mmMaxGo_find G s (minimax G d) (m :: rest) ⊥ none hex
  · have hex : ∃ mv ∈ m :: rest, (minimax G d (G.forecast s mv) true).1 < ⊤ := by
      rw [minimax_fst_min G s d hlm] at hmin
      obtain ⟨x, hxmem, hx⟩ := exists_infList_lt hmin
      obtain ⟨mv, hmv, rfl⟩ := List.mem_map.mp hxmem
      exact ⟨mv, hmv, hx⟩
    rw [minimax_succ_min G s d hlm]
    exact mmMinGo_find G s (minimax G d) (m :: rest) ⊤ none hex

/-- If every child score of the maximizing alpha-beta loop is `-inf`, the
loop never replaces its running pair. -/
theorem abMaxGo_bot (G : Game σ) (s : σ)
    (cab : σ → Score → Score → Bool → Score × Option Move)
    (alpha beta : Score) :
    ∀ (ms : List Move) (bm : Option Move),
      (∀ m ∈ ms, (cab (G.forecast s m) alpha beta false).1 = ⊥) →
      abMaxGo G s cab ms ⊥ bm alpha beta = (⊥, bm) := by
  intro ms
  induction ms with
  | nil => intro bm _; rfl
  | cons m rest ih =>
    intro bm h
    have hsc : (cab (G.forecast s m) alpha beta false).1 = ⊥ :=
      h m (List.mem_cons_self m rest)
    simp only [abMaxGo]
    rw [hsc, if_neg (lt_irrefl (⊥ : Score))]
    by_cases hb : beta ≤ (⊥ : Score)
    · rw [if_pos hb]
    · rw [if_neg hb, max_eq_left bot_le]
      exact ih bm fun m' hm' => h m' (List.mem_cons_of_mem _ hm')

/-- If every child score of the minimizing alpha-beta loop is `+inf`, the
loop never replaces its running pair. -/
theorem abMinGo_top (G : Game σ) (s : σ)
    (cab : σ → Score → Score → Bool → Score × Option Move)
    (alpha beta : Score) :
    ∀ (ms : List Move) (bm : Option Move),
      (∀ m ∈ ms, (cab (G.forecast s m) alpha beta true).1 = ⊤) →
      abMinGo G s cab ms ⊤ bm alpha beta = (⊤, bm) := by
  intro ms
  induction ms with
  | nil => intro bm _; rfl
  | cons m rest ih =>
    intro bm h
    have hsc : (cab (G.forecast s m) alpha beta true).1 = ⊤ :=
      h m (List.mem_cons_self m rest)
    simp only [abMinGo]
    rw [hsc, if_neg (lt_irrefl (⊤ : Score))]
    by_cases hb : (⊤ : Score) ≤ alpha
    · rw [if_pos hb]
    · rw [if_neg hb, min_eq_left le_top]
      exact ih bm fun m' hm' => h m' (List.mem_cons_of_mem _ hm')

/-- C10: if every successor's recursive score is `-inf` in a maximizing
layer (or, independently, `+inf` in a minimizing layer), the
strict-improvement comparison never fires and the respective search returns
`None` as the move component of the result: a value that is neither `some`
of a legal move nor the `(-1, -1)` sentinel.  Each layer's premise implies
its own conclusion, for each of the two algorithms. -/
theorem C10_all_losing_returns_none (G : Game σ) (s : σ) (d : Nat) (m : Move)
    (rest : List Move) (alpha beta : Score) (hlm : G.legal s = m :: rest) :
    ((∀ mv ∈ m :: rest, (minimax G d (G.forecast s mv) false).1 = ⊥) →
      (minimax G (d + 1) s true).2 = none) ∧
    ((∀ mv ∈ m :: rest, (minimax G d (G.forecast s mv) true).1 = ⊤) →
      (minimax G (d + 1) s false).2 = none) ∧
    ((∀ mv ∈ m :: rest,
        (alphabeta G d (G.forecast s mv) alpha beta false).1 = ⊥) →
      (alphabeta G (d + 1) s alpha beta true).2 = none) ∧
    ((∀ mv ∈ m :: rest,
        (alphabeta G d (G.forecast s mv) alpha beta true).1 = ⊤) →
      (alphabeta G (d + 1) s alpha beta false).2 = none) ∧
    (∀ mv : Move, (none : Option Move) ≠ some mv) := by
  refine ⟨fun hbot => ?_, fun htop => ?_, fun habbot => ?_, fun habtop => ?_,
    fun mv h => Option.noConfusion h⟩
  · rw [minimax_succ_max G s d hlm,
      mmMaxGo_const G s (minimax G d) (m :: rest) ⊥ none
        (fun mv hmv => le_of_eq (hbot mv hmv))]
  · rw [minimax_succ_min G s d hlm,
      mmMinGo_const G s (minimax G d) (m :: rest) ⊤ none
        (fun mv hmv => le_of_eq (htop mv hmv).symm)]
  · rw [alphabeta_succ_max G s d alpha beta hlm,
      abMaxGo_bot G s (alphabeta G d) alpha beta (m :: rest) none habbot]
  · rw [alphabeta_succ_min G s d alpha beta hlm,
      abMinGo_top G s (alphabeta G d) alpha beta (m :: rest) none habtop]

/-- C7: base cases of both searches.  At `depth == 0` they return the
evaluation paired with `(-1, -1)` for every state `s`, with or without legal
moves; at `depth > 0`, for every state `s'` whose legal-move list is empty,
they return the board utility paired with `(-1, -1)`.  The timed variants
show that exactly one time sample is made, i.e. no recursion happens. -/
theorem C7_base_cases (G : Game σ) (s s' : σ) (maxi : Bool) (alpha beta : Score)
    (d : Nat) (T : Timer) (t : Nat) (hlm : G.legal s' = [])
    (ht : ¬ T.timeLeft t < T.threshold) :
    minimax G 0 s maxi = (G.eval s, some nullMove) ∧
    alphabeta G 0 s alpha beta maxi = (G.eval s, some nullMove) ∧
    minimax G (d + 1) s' maxi = (G.utility s', some nullMove) ∧
    alphabeta G (d + 1) s' alpha beta maxi = (G.utility s', some nullMove) ∧
    minimaxT G T 0 s maxi t = some ((G.eval s, some nullMove), t + 1) ∧
    alphabetaT G T 0 s alpha beta maxi t = some ((G.eval s, some nullMove), t + 1) ∧
    minimaxT G T (d + 1) s' maxi t = some ((G.utility s', some nullMove), t + 1) ∧
    alphabetaT G T (d + 1) s' alpha beta maxi t =
      some ((G.utility s', some nullMove), t + 1) := by
  refine ⟨rfl, rfl, minimax_succ_nil G s' d maxi hlm,
    alphabeta_succ_nil G s' d alpha beta maxi hlm, ?_, ?_, ?_, ?_⟩
  · simp [minimaxT, ht]
  · simp [alphabetaT, ht]
  · simp [minimaxT, ht, hlm]
  · simp [alphabetaT, ht, hlm]

/-! ### Timed searches agree with the pure searches when time never runs out -/

theorem mmMaxGoT_ok (G : Game σ) (s : σ)
    (cT : σ → Bool → Nat → Option ((Score × Option Move) × Nat))
    (c : σ → Bool → Score × Option Move)
    (hc : ∀ s' maxi t, ∃ t', cT s' maxi t = some (c s' maxi, t')) :
    ∀ (ms : List Move) (b : Score) (bm : Option Move) (t : Nat),
      ∃ t', mmMaxGoT G s cT ms b bm t = some (mmMaxGo G s c ms b bm, t') := by
  intro ms
  induction ms with
  | nil => intro b bm t; exact ⟨t, rfl⟩
  | cons m rest ih =>
    intro b bm t
    obtain ⟨t1, h1⟩ := hc (G.forecast s m) false t
    simp only [mmMaxGoT, mmMaxGo, h1]
    by_cases hlt : b < (c (G.forecast s m) false).1
    · rw [if_pos hlt, if_pos hlt]
      exact ih _ _ t1
    · rw [if_neg hlt, if_neg hlt]
      exact ih b bm t1

theorem mmMinGoT_ok (G : Game σ) (s : σ)
    (cT : σ → Bool → Nat → Option ((Score × Option Move) × Nat))
    (c : σ → Bool → Score × Option Move)
    (hc : ∀ s' maxi t, ∃ t', cT s' maxi t = some (c s' maxi, t')) :
    ∀ (ms : List Move) (b : Score) (bm : Option Move) (t : Nat),
      ∃ t', mmMinGoT G s cT ms b bm t = some (mmMinGo G s c ms b bm, t') := by
  intro ms
  induction ms with
  | nil => intro b bm t; exact ⟨t, rfl⟩
  | cons m rest ih =>
    intro b bm t
    obtain ⟨t1, h1⟩ := hc (G.forecast s m) true t
    simp only [mmMinGoT, mmMinGo, h1]
    by_cases hlt : (c (G.forecast s m) true).1 < b
    · rw [if_pos hlt, if_pos hlt]
      exact ih _ _ t1
    · rw [if_neg hlt, if_neg hlt]
      exact ih b bm t1

/-- With a timer that never falls below the threshold, the timed `minimax`
completes and returns exactly the pure `minimax` result. -/
theorem minimaxT_ok (G : Game σ) (T : Timer)
    (hT : ∀ k, ¬ T.timeLeft k < T.threshold) :
    ∀ (d : Nat) (s : σ) (maxi : Bool) (t : Nat),
      ∃ t', minimaxT G T d s maxi t = some (minimax G d s maxi, t') := by
  intro d
  induction d with
  | zero =>
    intro s maxi t
    exact ⟨t + 1, by simp [minimaxT, minimax, hT t]⟩
  | succ d ih =>
    intro s maxi t
    cases hlm : G.legal s with
    | nil => exact ⟨t + 1, by simp [minimaxT, minimax, hT t, hlm]⟩
    | cons m rest =>
      cases maxi with
      | true =>
        obtain ⟨t', h⟩ := mmMaxGoT_ok G s (minimaxT G T d) (minimax G d)
          (fun s' mx u => ih s' mx u) (m :: rest) ⊥ none (t + 1)
        refine ⟨t', ?_⟩
        rw [minimax_succ_max G s d hlm]
        simp only [minimaxT, hlm]
        rw [if_neg (hT t)]
        exact h
      | false =>
        obtain ⟨t', h⟩ := mmMinGoT_ok G s (minimaxT G T d) (minimax G d)
          (fun s' mx u => ih s' mx u) (m :: rest) ⊤ none (t + 1)
        refine ⟨t', ?_⟩
        rw [minimax_succ_min G s d hlm]
        simp only [minimaxT, hlm]
        rw [if_neg (hT t)]
        exact h

theorem abMaxGoT_ok (G : Game σ) (s : σ)
    (cT : σ → Score → Score → Bool → Nat → Option ((Score × Option Move) × Nat))
    (c : σ → Score → Score → Bool → Score × Option Move)
    (hc : ∀ s' a b maxi t, ∃ t', cT s' a b maxi t = some (c s' a b maxi, t')) :
    ∀ (ms : List Move) (b : Score) (bm : Option Move) (alpha beta : Score) (t : Nat),
      ∃ t', abMaxGoT G s cT ms b bm alpha beta t =
        some (abMaxGo G s c ms b bm alpha beta, t') := by
  intro ms
  induction ms with
  | nil => intro b bm alpha beta t; exact ⟨t, rfl⟩
  | cons m rest ih =>
    intro b bm alpha beta t
    obtain ⟨t1, h1⟩ := hc (G.forecast s m) alpha beta false t
    simp only [abMaxGoT, abMaxGo, h1]
    by_cases hlt : b < (c (G.forecast s m) alpha beta false).1
    · rw [if_pos hlt, if_pos hlt]
      by_cases hcut : beta ≤ (c (G.forecast s m) alpha beta false).1
      · rw [if_pos hcut, if_pos hcut]
        exact ⟨t1, rfl⟩
      · rw [if_neg hcut, if_neg hcut]
        exact ih _ _ _ _ t1
    · rw [if_neg hlt, if_neg hlt]
      by_cases hcut : beta ≤ b
      · rw [if_pos hcut, if_pos hcut]
        exact ⟨t1, rfl⟩
      · rw [if_neg hcut, if_neg hcut]
        exact ih _ _ _ _ t1

theorem abMinGoT_ok (G : Game σ) (s : σ)
    (cT : σ → Score → Score → Bool → Nat → Option ((Score × Option Move) × Nat))
    (c : σ → Score → Score → Bool → Score × Option Move)
    (hc : ∀ s' a b maxi t, ∃ t', cT s' a b maxi t = some (c s' a b maxi, t')) :
    ∀ (ms : List Move) (b : Score) (bm : Option Move) (alpha beta : Score) (t : Nat),
      ∃ t', abMinGoT G s cT ms b bm alpha beta t =
        some (abMinGo G s c ms b bm alpha beta, t') := by
  intro ms
  induction ms with
  | nil => intro b bm alpha beta t; exact ⟨t, rfl⟩
  | cons m rest ih =>
    intro b bm alpha beta t
    obtain ⟨t1, h1⟩ := hc (G.forecast s m) alpha beta true t
    simp only [abMinGoT, abMinGo, h1]
    by_cases hlt : (c (G.forecast s m) alpha beta true).1 < b
    · rw [if_pos hlt, if_pos hlt]
      by_cases hcut : (c (G.forecast s m) alpha beta true).1 ≤ alpha
      · rw [if_pos hcut, if_pos hcut]
        exact ⟨t1, rfl⟩
      · rw [if_neg hcut, if_neg hcut]
        exact ih _ _ _ _ t1
    · rw [if_neg hlt, if_neg hlt]
      by_cases hcut : b ≤ alpha
      · rw [if_pos hcut, if_pos hcut]
        exact ⟨t1, rfl⟩
      · rw [if_neg hcut, if_neg hcut]
        exact ih _ _ _ _ t1

/-- With a timer that never falls below the threshold, the timed `alphabeta`
completes and returns exactly the pure `alphabeta` result. -/
theorem alphabetaT_ok (G : Game σ) (T : Timer)
    (hT : ∀ k, ¬ T.timeLeft k < T.threshold) :
    ∀ (d : Nat) (s : σ) (alpha beta : Score) (maxi : Bool) (t : Nat),
      ∃ t', alphabetaT G T d s alpha beta maxi t =
        some (alphabeta G d s alpha beta maxi, t') := by
  intro d
  induction d with
  | zero =>
    intro s alpha beta maxi t
    exact ⟨t + 1, by simp [alphabetaT, alphabeta, hT t]⟩
  | succ d ih =>
    intro s alpha beta maxi t
    cases hlm : G.legal s with
    | nil => exact ⟨t + 1, by simp [alphabetaT, alphabeta, hT t, hlm]⟩
    | cons m rest =>
      cases maxi with
      | true =>
        obtain ⟨t', h⟩ := abMaxGoT_ok G s (alphabetaT G T d) (alphabeta G d)
          (fun s' a b mx u => ih s' a b mx u) (m :: rest) ⊥ none alpha beta (t + 1)
        refine ⟨t', ?_⟩
        rw [alphabeta_succ_max G s d alpha beta hlm]
        simp only [alphabetaT, hlm]
        rw [if_neg (hT t)]
        exact h
      | false =>
        obtain ⟨t', h⟩ := abMinGoT_ok G s (alphabetaT G T d) (alphabeta G d)
          (fun s' a b mx u => ih s' a b mx u) (m :: rest) ⊤ none alpha beta (t + 1)
        refine ⟨t', ?_⟩
        rw [alphabeta_succ_min G s d alpha beta hlm]
        simp only [alphabetaT, hlm]
        rw [if_neg (hT t)]
        exact h

/-! ### The iterative-deepening loop -/

/-- If the search at the current depth raises `Timeout`, the loop falls out
keeping the previously stored move. -/
theorem idLoop_timeout (srch : Nat → Nat → Option ((Score × Option Move) × Nat))
    (fuel d : Nat) (move : Option Move) (t : Nat) (h : srch d t = none) :
    idLoop srch (fuel + 1) d move t = move := by
  simp [idLoop, h]

/-- If every bounded search completes with the pure result `p d`, then after
`fuel + 1` loop iterations starting at depth `d` the stored move is the one
returned by the search at depth `d + fuel`: the loop visits consecutive
depths and keeps each completed depth's move. -/
theorem idLoop_ok (srch : Nat → Nat → Option ((Score × Option Move) × Nat))
    (p : Nat → Score × Option Move)
    (hs : ∀ d t, ∃ t', srch d t = some (p d, t')) :
    ∀ (fuel d : Nat) (move : Option Move) (t : Nat),
      idLoop srch (fuel + 1) d move t = (p (d + fuel)).2 := by
  intro fuel
  induction fuel with
  | zero =>
    intro d move t
    obtain ⟨t', h⟩ := hs d t
    simp [idLoop, h]
  | succ fuel ih =>
    intro d move t
    obtain ⟨t', h⟩ := hs d t
    have hstep : idLoop srch (fuel + 1 + 1) d move t =
        idLoop srch (fuel + 1) (d + 1) (p d).2 t' := by
      show (match srch d t with
        | none => move
        | some (r, u') => idLoop srch (fuel + 1) (d + 1) r.2 u') =
        idLoop srch (fuel + 1) (d + 1) (p d).2 t'
      rw [h]
    rw [hstep, ih (d + 1) _ t']
    have harith : d + 1 + fuel = d + (fuel + 1) := by omega
    rw [harith]

/-! ### Claims about `get_move` -/

/-- C4: with an empty `legal_moves` list, `get_move` returns the `(-1, -1)`
sentinel immediately; the result does not depend on the timer, the sample
index, the configuration or the loop bound, so no search is invoked. -/
theorem C4_no_moves_sentinel (G : Game σ) (T : Timer) (cfg : Config)
    (N : Nat) (s : σ) (t : Nat) :
    getMove G T cfg N s [] t = .ok (some nullMove) := rfl

/-- C8: with a nonempty `legal_moves` list and a method name that is neither
`'minimax'` nor `'alphabeta'`, `get_move` raises `ValueError` at the point of
use, in both iterative-deepening and fixed-depth mode. -/
theorem C8_unknown_method_error (G : Game σ) (T : Timer) (cfg : Config)
    (N : Nat) (s : σ) (lmp : List Move) (t : Nat) (hlm : lmp ≠ [])
    (h1 : cfg.method ≠ "minimax") (h2 : cfg.method ≠ "alphabeta") :
    getMove G T cfg N s lmp t =
      .error (.valueError ("Unknown method " ++ cfg.method)) := by
  cases hit : cfg.iterative <;> simp [getMove, hlm, h1, h2, hit]

/-- C3: every entry of `minimax` and `alphabeta` samples the clock first and
raises `Timeout` (producing no `SearchResult`) if it is below the threshold;
the deepening loop catches it and keeps the move stored by the last depth
that completed; and `get_move` never lets `Timeout` escape for a recognized
method. -/
theorem C3_timeout_discipline (G : Game σ) (T : Timer) (d : Nat) (s : σ)
    (maxi : Bool) (alpha beta : Score) (t : Nat)
    (h : T.timeLeft t < T.threshold)
    (srch : Nat → Nat → Option ((Score × Option Move) × Nat))
    (fuel dd : Nat) (mv : Option Move) (u : Nat) (h2 : srch dd u = none)
    (cfg : Config) (N : Nat) (lmp : List Move) (u2 : Nat)
    (hm : cfg.method = "minimax" ∨ cfg.method = "alphabeta") :
    minimaxT G T d s maxi t = none ∧
    alphabetaT G T d s alpha beta maxi t = none ∧
    idLoop srch (fuel + 1) dd mv u = mv ∧
    (∃ res, getMove G T cfg N s lmp u2 = .ok res) := by
  refine ⟨?_, ?_, idLoop_timeout srch fuel dd mv u h2, ?_⟩
  · cases d <;> simp [minimaxT, h]
  · cases d <;> simp [alphabetaT, h]
  · by_cases hleg : lmp = []
    · exact ⟨some nullMove, by simp [getMove, hleg]⟩
    · rcases hm with hm | hm <;> cases hit : cfg.iterative <;>
        simp [getMove, hleg, hm, hit]

/-- C9: with a timer that never falls below the threshold, running the
iterative-deepening loop until the iteration at depth `D` has completed
stores the same move that a single fixed-depth `get_move`
(`iterative = False`, `search_depth = D`) returns, for both search methods. -/
theorem C9_iterative_matches_fixed (G : Game σ) (T : Timer) (s : σ)
    (D : Nat) (t t2 : Nat) (N : Nat) (lmp : List Move)
    (hT : ∀ k, ¬ T.timeLeft k < T.threshold) (hD : 1 ≤ D) (hlmp : lmp ≠ []) :
    idLoop (fun d' u => minimaxT G T d' s true u) (D + 1) 0 none t =
      (minimax G D s true).2 ∧
    getMove G T ⟨D, false, "minimax"⟩ N s lmp t2 =
      .ok ((minimax G D s true).2) ∧
    idLoop (fun d' u => alphabetaT G T d' s ⊥ ⊤ true u) (D + 1) 0 none t =
      (alphabeta G D s ⊥ ⊤ true).2 ∧
    getMove G T ⟨D, false, "alphabeta"⟩ N s lmp t2 =
      .ok ((alphabeta G D s ⊥ ⊤ true).2) := by
  refine ⟨?_, ?_, ?_, ?_⟩
  · have h := idLoop_ok (fun d' u => minimaxT G T d' s true u)
      (fun d' => minimax G d' s true)
      (fun d' u => minimaxT_ok G T hT d' s true u) D 0 none t
    rw [h, Nat.zero_add]
  · obtain ⟨t', h⟩ := minimaxT_ok G T hT D s true t2
    simp [getMove, hlmp, h]
  · have h := idLoop_ok (fun d' u => alphabetaT G T d' s ⊥ ⊤ true u)
      (fun d' => alphabeta G d' s ⊥ ⊤ true)
      (fun d' u => alphabetaT_ok G T hT d' s ⊥ ⊤ true u) D 0 none t
    rw [h, Nat.zero_add]
  · obtain ⟨t', h⟩ := alphabetaT_ok G T hT D s ⊥ ⊤ true t2
    simp [getMove, hlmp, h]

/-! ### Concrete games and timers used as test inputs -/

/-- The spec's concrete scenario: three legal moves whose depth-1 child
evaluations are 3, 5, 5 in enumeration order. -/
def G355 : Game Nat where
  legal := fun s => if s = 0 then [(0, 0), (0, 1), (0, 2)] else []
  forecast := fun s m => if s = 0 then 1 + m.2.toNat else 9
  utility := fun _ => fin 0
  eval := fun s =>
    if s = 1 then fin 3 else if s = 2 then fin 5 else
    if s = 3 then fin 5 else fin 0

/-- A game whose two root moves both have depth-1 child evaluation `-inf`. -/
def Gbot : Game Nat where
  legal := fun s => if s = 0 then [(0, 0), (0, 1)] else []
  forecast := fun _ _ => 1
  utility := fun _ => fin 0
  eval := fun _ => ⊥

/-- A game whose two root moves both have depth-1 child evaluation `+inf`:
the dual of `Gbot`, for the minimizing-layer half of C10. -/
def Gtop : Game Nat where
  legal := fun s => if s = 0 then [(0, 0), (0, 1)] else []
  forecast := fun _ _ => 1
  utility := fun _ => fin 0
  eval := fun _ => ⊤

/-- A small game for the timeout scenarios: the root has one legal move and
every other state has none. -/
def GameC : Game Nat where
  legal := fun s => if s = 0 then [(0, 0)] else []
  forecast := fun _ _ => 1
  utility := fun _ => fin 0
  eval := fun _ => fin 1

/-- A timer that is always below the threshold. -/
def Tbad : Timer where
  timeLeft := fun _ => 0
  threshold := 5

/-- A timer that is never below the threshold. -/
def Tok : Timer where
  timeLeft := fun _ => 10
  threshold := 5

/-- A timer with room for exactly one time sample. -/
def T1 : Timer where
  timeLeft := fun k => if k = 0 then 10 else 0
  threshold := 5

/-- C2 counterexample: in `Gbot` both legal moves achieve the (equal) best
score `-inf` at depth 1, yet the move returned is `None`, not the first such
move `(0, 0)` in enumeration order. -/
theorem C2_counterexample :
    Gbot.legal 0 = [(0, 0), (0, 1)] ∧
    (minimax Gbot 0 (Gbot.forecast 0 (0, 0)) false).1 =
      (minimax Gbot 1 0 true).1 ∧
    (minimax Gbot 0 (Gbot.forecast 0 (0, 1)) false).1 =
      (minimax Gbot 1 0 true).1 ∧
    (minimax Gbot 1 0 true).2 = none ∧
    (minimax Gbot 1 0 true).2 ≠ some (0, 0) := by
  decide

/-- C5 (code behavior at the failing input): when the timer is below the
threshold from the very first sample, `get_move` with a legal move available
returns the `None` placeholder — which is neither the `(-1, -1)` sentinel
nor a legal move — and does not raise. -/
theorem C5_timeout_returns_placeholder_none :
    getMove GameC Tbad ⟨3, true, "minimax"⟩ 5 0 [(0, 0)] 0 = .ok none ∧
    getMove GameC Tbad ⟨3, true, "alphabeta"⟩ 5 0 [(0, 0)] 0 = .ok none ∧
    getMove GameC Tbad ⟨3, false, "minimax"⟩ 5 0 [(0, 0)] 0 = .ok none ∧
    (none : Option Move) ≠ some nullMove ∧
    (∀ mv ∈ GameC.legal 0, (none : Option Move) ≠ some mv) := by
  exact ⟨rfl, rfl, rfl, by decide, by decide⟩

/-- C6 (code behavior at the failing input): the deepening loop's first
iteration searches depth 0, not depth 1.  With time for exactly one sample,
the depth-0 search completes normally (storing the `(-1, -1)` sentinel it
returns) and the depth-1 search raises `Timeout` on entry, so `get_move`
returns `(-1, -1)` even though a legal move exists. -/
theorem C6_first_iteration_searches_depth_zero :
    minimaxT GameC T1 0 0 true 0 = some ((fin 1, some nullMove), 1) ∧
    minimaxT GameC T1 1 0 true 1 = none ∧
    getMove GameC T1 ⟨3, true, "minimax"⟩ 5 0 [(0, 0)] 0 =
      .ok (some nullMove) ∧
    GameC.legal 0 = [(0, 0)] ∧
    nullMove ∉ GameC.legal 0 := by
  exact ⟨rfl, rfl, rfl, rfl, by decide⟩

/-! ### Witnesses -/

theorem C2_witness :
    G355.legal 0 = [(0, 0), (0, 1), (0, 2)] ∧
    (⊥ : Score) < (minimax G355 1 0 true).1 ∧
    (minimax G355 1 0 false).1 < ⊤ ∧
    (minimax G355 1 0 true).2 = some (0, 1) ∧
    (alphabeta G355 1 0 ⊥ ⊤ true).2 = some (0, 1) := by
  have h := C2_first_best_move G355 0 0 (0, 0) [(0, 1), (0, 2)]
    (by decide) (by decide) (by decide)
  exact ⟨by decide, by decide, by decide, h.1.trans (by decide),
    h.2.2.trans (h.1.trans (by decide))⟩

theorem C3_witness :
    Tbad.timeLeft 0 < Tbad.threshold ∧
    ((fun _ _ => (none : Option ((Score × Option Move) × Nat))) 0 0 =
      (none : Option ((Score × Option Move) × Nat))) ∧
    (minimaxT GameC Tbad 2 0 true 0 = none ∧
     alphabetaT GameC Tbad 2 0 ⊥ ⊤ true 0 = none ∧
     idLoop (fun _ _ => none) (0 + 1) 0 none 0 = none ∧
     (∃ res, getMove GameC Tbad ⟨3, true, "minimax"⟩ 5 0 [(0, 0)] 0 = .ok res)) := by
  refine ⟨by decide, rfl, ?_⟩
  exact C3_timeout_discipline GameC Tbad 2 0 true ⊥ ⊤ 0 (by decide)
    (fun _ _ => none) 0 0 none 0 rfl ⟨3, true, "minimax"⟩ 5 [(0, 0)] 0
    (Or.inl rfl)

theorem C7_witness :
    GameC.legal 0 = [(0, 0)] ∧
    GameC.legal 1 = [] ∧
    (¬ Tok.timeLeft 0 < Tok.threshold) ∧
    minimax GameC 0 0 true = (GameC.eval 0, some nullMove) ∧
    minimax GameC (2 + 1) 1 true = (GameC.utility 1, some nullMove) ∧
    minimaxT GameC Tok (2 + 1) 1 true 0 =
      some ((GameC.utility 1, some nullMove), 0 + 1) := by
  have h := C7_base_cases GameC 0 1 true ⊥ ⊤ 2 Tok 0 rfl (by decide)
  exact ⟨rfl, rfl, by decide, h.1, h.2.2.1, h.2.2.2.2.2.2.1⟩

theorem C8_witness :
    ([(0, 0)] : List Move) ≠ [] ∧
    (Config.method ⟨3, true, "foo"⟩ ≠ "minimax") ∧
    (Config.method ⟨3, true, "foo"⟩ ≠ "alphabeta") ∧
    getMove GameC Tok ⟨3, true, "foo"⟩ 5 0 [(0, 0)] 0 =
      .error (.valueError ("Unknown method " ++ Config.method ⟨3, true, "foo"⟩)) ∧
    getMove GameC Tok ⟨3, false, "foo"⟩ 5 0 [(0, 0)] 0 =
      .error (.valueError ("Unknown method " ++ Config.method ⟨3, false, "foo"⟩)) := by
  refine ⟨by decide, by decide, by decide, ?_, ?_⟩
  · exact C8_unknown_method_error GameC Tok ⟨3, true, "foo"⟩ 5 0 [(0, 0)] 0
      (by decide) (by decide) (by decide)
  · exact C8_unknown_method_error GameC Tok ⟨3, false, "foo"⟩ 5 0 [(0, 0)] 0
      (by decide) (by decide) (by decide)

theorem Tok_never_below (k : Nat) : ¬ Tok.timeLeft k < Tok.threshold := by
  show ¬ (10 : ℚ) < 5
  decide

theorem C9_witness :
    (∀ k, ¬ Tok.timeLeft k < Tok.threshold) ∧
    (1 ≤ 1) ∧
    (([(0, 0)] : List Move) ≠ []) ∧
    idLoop (fun d' u => minimaxT G355 Tok d' 0 true u) (1 + 1) 0 none 0 =
      (minimax G355 1 0 true).2 ∧
    getMove G355 Tok ⟨1, false, "minimax"⟩ 5 0 [(0, 0)] 0 =
      .ok ((minimax G355 1 0 true).2) := by
  have h := C9_iterative_matches_fixed G355 Tok 0 1 0 0 5 [(0, 0)]
    Tok_never_below (by decide) (by decide)
  exact ⟨Tok_never_below, by decide, by decide, h.1, h.2.1⟩

theorem C10_witness :
    Gbot.legal 0 = [(0, 0), (0, 1)] ∧
    (∀ mv ∈ ((0, 0) : Move) :: [((0, 1) : Move)],
      (minimax Gbot 0 (Gbot.forecast 0 mv) false).1 = ⊥) ∧
    (∀ mv ∈ ((0, 0) : Move) :: [((0, 1) : Move)],
      (alphabeta Gbot 0 (Gbot.forecast 0 mv) ⊥ ⊤ false).1 = ⊥) ∧
    (minimax Gbot 1 0 true).2 = none ∧
    (alphabeta Gbot 1 0 ⊥ ⊤ true).2 = none ∧
    Gtop.legal 0 = [(0, 0), (0, 1)] ∧
    (∀ mv ∈ ((0, 0) : Move) :: [((0, 1) : Move)],
      (minimax Gtop 0 (Gtop.forecast 0 mv) true).1 = ⊤) ∧
    (∀ mv ∈ ((0, 0) : Move) :: [((0, 1) : Move)],
      (alphabeta Gtop 0 (Gtop.forecast 0 mv) ⊥ ⊤ true).1 = ⊤) ∧
    (minimax Gtop 1 0 false).2 = none ∧
    (alphabeta Gtop 1 0 ⊥ ⊤ false).2 = none := by
  have hb := C10_all_losing_returns_none Gbot 0 0 (0, 0) [(0, 1)] ⊥ ⊤ (by decide)
  have ht := C10_all_losing_returns_none Gtop 0 0 (0, 0) [(0, 1)] ⊥ ⊤ (by decide)
  exact ⟨by decide, by decide, by decide,
    hb.1 (by decide), hb.2.2.1 (by decide),
    by decide, by decide, by decide,
    ht.2.1 (by decide), ht.2.2.2.1 (by decide)⟩

end GameAgent
